import Mathlib

/-!
Verification of the Snippr snippets API (`src/server.js`).

JavaScript strings are modelled at the byte level as `List Nat` (UTF-8 code
units, each `< 256`).  The AES-256 block permutation provided by Node's
`crypto` module is modelled as an abstract `BlockCipher` structure; the CBC
chaining, PKCS#7 padding, hex encoding and the `<hex iv>:<hex ciphertext>`
envelope of `encrypt`/`decrypt` are embedded explicitly.  The random IV drawn
by `crypto.randomBytes` inside `encrypt` is passed as an explicit argument.
-/

namespace Snippr

/-- JavaScript strings at the byte level: a list of byte values. -/
abbrev JsStr := List Nat

/-- All entries of the list are bytes (`< 256`). -/
def Bytes (l : List Nat) : Prop := ∀ x ∈ l, x < 256

instance decidableBytes (l : List Nat) : Decidable (Bytes l) :=
  inferInstanceAs (Decidable (∀ x ∈ l, x < 256))

/-- ASCII lower-casing of one byte, as `String.prototype.toLowerCase`
acts on ASCII data. -/
def lowerByte (c : Nat) : Nat := if 65 ≤ c ∧ c ≤ 90 then c + 32 else c

/-- `s.toLowerCase()` on ASCII byte strings. -/
def toLower (s : JsStr) : JsStr := s.map lowerByte

/-- The hex digit character emitted by `Buffer.prototype.toString("hex")`
(lowercase) for a digit value `d < 16`. -/
def hexDigitChar (d : Nat) : Nat := if d < 10 then 48 + d else 87 + d

/-- `Buffer.prototype.toString("hex")`: two lowercase hex digits per byte. -/
def hexEncode : List Nat → JsStr
  | [] => []
  | b :: bs => hexDigitChar (b / 16) :: hexDigitChar (b % 16) :: hexEncode bs

/-- Value of one hex digit character; `Buffer.from(s, "hex")` accepts both
cases. -/
def hexDigitVal (c : Nat) : Option Nat :=
  if 48 ≤ c ∧ c ≤ 57 then some (c - 48)
  else if 97 ≤ c ∧ c ≤ 102 then some (c - 87)
  else if 65 ≤ c ∧ c ≤ 70 then some (c - 55)
  else none

/-- `Buffer.from(s, "hex")`: consumes hex-digit pairs greedily and stops at
the first pair containing a non-hex character (Node truncates instead of
raising an error; a trailing odd digit is dropped). -/
def hexDecode : JsStr → List Nat
  | c1 :: c2 :: rest =>
    match hexDigitVal c1, hexDigitVal c2 with
    | some hi, some lo => (16 * hi + lo) :: hexDecode rest
    | _, _ => []
  | _ => []

/-- `text.split(":")` at the byte level (58 is the code of `:`). -/
def splitColon : JsStr → List JsStr
  | [] => [[]]
  | c :: cs =>
    if c = 58 then [] :: splitColon cs
    else
      match splitColon cs with
      | [] => [[c]]
      | p :: ps => (c :: p) :: ps

/-- Byte-wise XOR of two byte strings (the chaining step of CBC mode). -/
def zipXor (a b : List Nat) : List Nat := List.zipWith (fun x y => x ^^^ y) a b

/-- Abstract model of the AES-256 block permutation supplied by Node's
`crypto.createCipheriv`/`crypto.createDecipheriv` for `aes-256-cbc`:
encryption and decryption of one 16-byte block under a key, with decryption
inverting encryption, mapping bytes to bytes. -/
structure BlockCipher where
  encB : List Nat → List Nat → List Nat
  decB : List Nat → List Nat → List Nat
  encB_length : ∀ k b, b.length = 16 → (encB k b).length = 16
  encB_bytes : ∀ k b, b.length = 16 → Bytes b → Bytes (encB k b)
  decB_encB : ∀ k b, b.length = 16 → Bytes b → decB k (encB k b) = b

/-- PKCS#7 padding applied by `cipher.update`/`cipher.final` for
`aes-256-cbc`: append `16 - len % 16` copies of that value. -/
def pkcs7Pad (pt : List Nat) : List Nat :=
  pt ++ List.replicate (16 - pt.length % 16) (16 - pt.length % 16)

/-- The PKCS#7 padding check performed by `decipher.final`: the last byte `p`
must lie in `1..16` and the last `p` bytes must all equal `p`; otherwise
decryption fails ("bad decrypt"). -/
def pkcs7Unpad (l : List Nat) : Option (List Nat) :=
  match l.getLast? with
  | none => none
  | some p =>
    if 1 ≤ p ∧ p ≤ 16 ∧ p ≤ l.length ∧ (l.drop (l.length - p)).all (fun x => x == p) then
      some (l.take (l.length - p))
    else none

/-- Split a byte string into consecutive 16-byte blocks. -/
def toBlocks (l : List Nat) : List (List Nat) :=
  if h : l = [] then []
  else
    l.take 16 :: toBlocks (l.drop 16)
termination_by l.length
decreasing_by
  simp only [List.length_drop]
  have := List.length_pos.mpr h
  omega

/-- CBC encryption of a block sequence: each plaintext block is XORed with
the previous ciphertext block (initially the IV) before the block cipher. -/
def cbcEncrypt (C : BlockCipher) (key iv : List Nat) : List (List Nat) → List (List Nat)
  | [] => []
  | b :: bs =>
    let c := C.encB key (zipXor iv b)
    c :: cbcEncrypt C key c bs

/-- CBC decryption of a block sequence. -/
def cbcDecrypt (C : BlockCipher) (key iv : List Nat) : List (List Nat) → List (List Nat)
  | [] => []
  | c :: cs => zipXor iv (C.decB key c) :: cbcDecrypt C key c cs

/-- `encrypt` from src/server.js: pad, CBC-encrypt under the process key with
the freshly drawn IV (passed explicitly), and return
`iv.toString("hex") + ":" + encrypted.toString("hex")`. -/
def encrypt (C : BlockCipher) (key iv : List Nat) (text : JsStr) : JsStr :=
  hexEncode iv ++ 58 :: hexEncode ((cbcEncrypt C key iv (toBlocks (pkcs7Pad text))).flatten)

/-- The failure value returned by the `catch` branch of `decrypt`:
the byte string of `"[Decryption Error]"`. -/
def decryptionError : JsStr :=
  [91, 68, 101, 99, 114, 121, 112, 116, 105, 111, 110, 32, 69, 114, 114, 111, 114, 93]

/-- The body of `decrypt` after the two-field split: IV-length validation,
hex decoding of the ciphertext, CBC decryption and the padding check of
`decipher.final`.  Every `throw` of the source becomes an `.error`. -/
def decryptParts (C : BlockCipher) (key : List Nat) (p0 p1 : JsStr) : Except String JsStr :=
  let iv := hexDecode p0
  if iv.length ≠ 16 then .error "Invalid IV length"
  else
    let ct := hexDecode p1
    if ct.length = 0 ∨ ct.length % 16 ≠ 0 then .error "bad decrypt"
    else
      match pkcs7Unpad (cbcDecrypt C key iv (toBlocks ct)).flatten with
      | some pt => .ok pt
      | none => .error "bad decrypt"

/-- The `try` block of `decrypt` from src/server.js: split on `":"`, require
exactly two fields, then decode.  `.error` marks each point where the source
throws (all such exceptions are caught by `decrypt`). -/
def decryptBody (C : BlockCipher) (key : List Nat) (text : JsStr) : Except String JsStr :=
  match splitColon text with
  | [p0, p1] => decryptParts C key p0 p1
  | _ => .error "Invalid encrypted text format"

/-- `decrypt` from src/server.js: the `try` body with the `catch` branch
returning the string `"[Decryption Error]"`. -/
def decrypt (C : BlockCipher) (key : List Nat) (text : JsStr) : JsStr :=
  match decryptBody C key text with
  | .ok pt => pt
  | .error _ => decryptionError

/-- A snippet record of the in-memory store: `code` holds the stored
ciphertext envelope; `userId` is `none` for public snippets. -/
structure Snippet where
  id : Nat
  language : JsStr
  code : JsStr
  userId : Option Nat
deriving DecidableEq

/-- A user record of the in-memory store. -/
structure User where
  id : Nat
  email : JsStr
  passwordHash : JsStr
deriving DecidableEq

/-- Modelled from the spec: the claim set of a session token issued by the
TokenService (`jwt.sign` of the external jsonwebtoken library) —
`{user identifier, email, issued-at, expiry}`. -/
structure Claims where
  id : Nat
  email : JsStr
  iat : Nat
  exp : Nat
deriving DecidableEq

/-- Modelled from the spec: a signed, self-contained token — an encoded
claim set plus a signature over it with the process signing secret. -/
structure SignedToken where
  claims : Claims
  sig : Nat
deriving DecidableEq

/-- `JWT_EXPIRATION = "24h"` in seconds. -/
def jwtExpirationSeconds : Nat := 86400

/-- Modelled from the spec: `issue(userId, email)` of the TokenService
(`jwt.sign({id, email}, JWT_SECRET, {expiresIn: "24h"})` in src/server.js) —
builds a claim set with issued-at `now` and expiry `now + 24h` and signs it
with the process secret via the abstract MAC `mac`. -/
def issue (mac : JsStr → Claims → Nat) (secret : JsStr) (uid : Nat)
    (email : JsStr) (now : Nat) : SignedToken :=
  let c : Claims := ⟨uid, email, now, now + jwtExpirationSeconds⟩
  ⟨c, mac secret c⟩

/-- Modelled from the spec: `verify(token)` of the TokenService
(`jwt.verify` used by `authenticateToken` in src/server.js) — checks the
signature against the secret and the expiry against the current time; any
failure yields the uniform invalid-or-expired error.  It consults no stored
state besides the token, the secret and the clock. -/
def verify (mac : JsStr → Claims → Nat) (secret : JsStr) (t : SignedToken)
    (now : Nat) : Except String Claims :=
  if t.sig = mac secret t.claims then
    if now < t.claims.exp then .ok t.claims
    else .error "Invalid or expired token"
  else .error "Invalid or expired token"

/-- A response body: either a plain message object, a (decrypted) snippet,
a list of snippets, the login success object, or the created-user object. -/
inductive Body where
  | message (msg : String)
  | snippet (s : Snippet)
  | snippets (l : List Snippet)
  | loginSuccess (msg : String) (token : SignedToken) (expiresIn : String)
  | userCreated (uid : Nat) (email : JsStr)
deriving DecidableEq

/-- An HTTP response as observable by the client: status code and body. -/
structure HttpResp where
  status : Nat
  body : Body
deriving DecidableEq

/-- A snippet as returned to the client: the stored record with `code`
replaced by its decryption. -/
def decryptSnippet (C : BlockCipher) (key : List Nat) (s : Snippet) : Snippet :=
  { s with code := decrypt C key s.code }

/-- The result list of `GET /snippets` (src/server.js lines 163-181): keep
public snippets (`userId === null`); when a non-empty `lang` query is present
(JS truthiness), additionally keep only snippets that decrypt successfully
and whose language matches case-insensitively; finally decrypt the bodies. -/
def getSnippetsList (C : BlockCipher) (key : List Nat) (store : List Snippet)
    (lang : Option JsStr) : List Snippet :=
  let results := store.filter (fun s => s.userId == none)
  let results :=
    match lang with
    | some l =>
      if l.isEmpty then results
      else
        results.filter (fun s =>
          (decrypt C key s.code != decryptionError) &&
            (toLower s.language == toLower l))
    | none => results
  results.map (decryptSnippet C key)

/-- `GET /snippets`: always a 200 carrying the filtered, decrypted list. -/
def getSnippets (C : BlockCipher) (key : List Nat) (store : List Snippet)
    (lang : Option JsStr) : HttpResp :=
  ⟨200, .snippets (getSnippetsList C key store lang)⟩

/-- `GET /snippets/:id` (src/server.js lines 183-203), anonymous access:
a found private snippet yields 403, a found public snippet yields its
decryption with 200, an unknown id yields 404. -/
def getSnippetById (C : BlockCipher) (key : List Nat) (store : List Snippet)
    (id : Nat) : HttpResp :=
  match store.find? (fun s => s.id == id) with
  | some s =>
    if s.userId ≠ none then
      ⟨403, .message "This snippet requires authentication"⟩
    else
      ⟨200, .snippet (decryptSnippet C key s)⟩
  | none => ⟨404, .message ("Snippet with ID " ++ toString id ++ " not found.")⟩

/-- The result list of `GET /user/snippets` (src/server.js lines 206-217)
for an authenticated caller `uid`: the snippets owned by `uid`, decrypted. -/
def getUserSnippetsList (C : BlockCipher) (key : List Nat)
    (store : List Snippet) (uid : Nat) : List Snippet :=
  (store.filter (fun s => s.userId == some uid)).map (decryptSnippet C key)

/-- `GET /user/snippets`: always a 200 carrying the caller's snippets. -/
def getUserSnippets (C : BlockCipher) (key : List Nat) (store : List Snippet)
    (uid : Nat) : HttpResp :=
  ⟨200, .snippets (getUserSnippetsList C key store uid)⟩

/-- `POST /login` (src/server.js lines 128-160).  `bcrypt.compare` is the
abstract predicate `compare`; the MAC of the token service is `mac`; absent
request fields are modelled as the empty string (both are falsy in JS). -/
def loginHandler (compare : JsStr → JsStr → Bool) (mac : JsStr → Claims → Nat)
    (secret : JsStr) (now : Nat) (users : List User)
    (email password : JsStr) : HttpResp :=
  if email.isEmpty || password.isEmpty then
    ⟨400, .message "Email and password are required"⟩
  else
    match users.find? (fun u => toLower u.email == toLower email) with
    | none => ⟨401, .message "Invalid email or password"⟩
    | some u =>
      if compare password u.passwordHash then
        ⟨200, .loginSuccess "Login successful" (issue mac secret u.id u.email now) "24h"⟩
      else
        ⟨401, .message "Invalid email or password"⟩

/-- The mutable user store: the `users` list and the `nextUserId` counter. -/
structure UserStore where
  users : List User
  nextUserId : Nat
deriving DecidableEq

/-- `POST /user` (src/server.js lines 287-327).  `bcrypt.hash` is the
abstract function `hash`; the handler returns the response together with the
updated store. -/
def registerUser (hash : JsStr → JsStr) (st : UserStore)
    (email password : JsStr) : HttpResp × UserStore :=
  if email.isEmpty || password.isEmpty then
    (⟨400, .message "Missing required fields: email and password"⟩, st)
  else if st.users.any (fun u => toLower u.email == toLower email) then
    (⟨409, .message "User with this email already exists."⟩, st)
  else
    let newUser : User := ⟨st.nextUserId, email, hash password⟩
    (⟨201, .userCreated newUser.id newUser.email⟩,
      ⟨st.users ++ [newUser], st.nextUserId + 1⟩)

/-- A concrete block cipher instance (the identity permutation on blocks)
used to evaluate the embedding on concrete inputs. -/
def idCipher : BlockCipher :=
  ⟨fun _ b => b, fun _ b => b, fun _ _ h => h, fun _ _ _ hb => hb,
    fun _ _ _ _ => rfl⟩

/-- A concrete 32-byte key. -/
def key0 : List Nat := List.replicate 32 0

/-- A concrete 16-byte IV. -/
def iv0 : List Nat := List.replicate 16 0

/-- A second, distinct concrete 16-byte IV. -/
def iv1 : List Nat := 1 :: List.replicate 15 0

/-- The byte string `"hi"`. -/
def msg0 : JsStr := [104, 105]

/-- The byte string `"python"`. -/
def pyLang : JsStr := [112, 121, 116, 104, 111, 110]

/-- A concrete MAC for evaluating the token-service model. -/
def mac0 : JsStr → Claims → Nat := fun _ _ => 0

/-- A concrete (always failing) password comparison. -/
def cmp0 : JsStr → JsStr → Bool := fun _ _ => false

/-- A concrete password hash function. -/
def hash0 : JsStr → JsStr := fun p => p

/-- A concrete user record with email `"a@b"`. -/
def userA : User := ⟨1, [97, 64, 98], [104]⟩

/-- A one-user store. -/
def stUsers : List User := [userA]

/-- A one-user registration store with counter 2. -/
def stReg : UserStore := ⟨[userA], 2⟩

/-- A private snippet (owner 7) with an undecryptable stored body `"x"`. -/
def snipPriv : Snippet := ⟨1, pyLang, [120], some 7⟩

/-- A store holding only the private snippet. -/
def stC2 : List Snippet := [snipPriv]

/-- A public python snippet whose stored body `"x"` is corrupted. -/
def snipPub : Snippet := ⟨2, pyLang, [120], none⟩

/-- A store holding only the corrupted public snippet. -/
def stC8 : List Snippet := [snipPub]

/-- A snippet owned by user 4 (stored body corrupted, irrelevant here). -/
def snipMine : Snippet := ⟨3, pyLang, [120], some 4⟩

/-- A store holding one owned and one public snippet. -/
def stC7 : List Snippet := [snipMine, snipPub]

theorem hexDigitChar_ne_colon (d : Nat) : hexDigitChar d ≠ 58 := by
  unfold hexDigitChar; split <;> omega

theorem hexDigitChar_lt (d : Nat) (h : d < 16) : hexDigitChar d < 256 := by
  unfold hexDigitChar; split <;> omega

theorem hexEncode_no_colon (bs : List Nat) : ∀ c ∈ hexEncode bs, c ≠ 58 := by
  induction bs with
  | nil => intro c hc; simp [hexEncode] at hc
  | cons b bs ih =>
    intro c hc
    simp only [hexEncode, List.mem_cons] at hc
    rcases hc with h | h | h
    · exact h ▸ hexDigitChar_ne_colon _
    · exact h ▸ hexDigitChar_ne_colon _
    · exact ih c h

theorem hexEncode_length (bs : List Nat) :
    (hexEncode bs).length = 2 * bs.length := by
  induction bs with
  | nil => rfl
  | cons b bs ih => simp [hexEncode, ih]; omega

theorem hexDigitVal_hexDigitChar (d : Nat) (h : d < 16) :
    hexDigitVal (hexDigitChar d) = some d := by
  unfold hexDigitVal hexDigitChar
  rcases Nat.lt_or_ge d 10 with h10 | h10
  · rw [if_pos h10]
    rw [if_pos (show 48 ≤ 48 + d ∧ 48 + d ≤ 57 by omega)]
    congr 1; omega
  · rw [if_neg (show ¬d < 10 by omega)]
    rw [if_neg (show ¬(48 ≤ 87 + d ∧ 87 + d ≤ 57) by omega),
        if_pos (show 97 ≤ 87 + d ∧ 87 + d ≤ 102 by omega)]
    congr 1; omega

theorem hexDecode_hexEncode (bs : List Nat) (h : Bytes bs) :
    hexDecode (hexEncode bs) = bs := by
  induction bs with
  | nil => rfl
  | cons b bs ih =>
    have hb : b < 256 := h b (List.mem_cons_self b bs)
    have hbs : Bytes bs := fun x hx => h x (List.mem_cons_of_mem b hx)
    simp only [hexEncode, hexDecode]
    rw [hexDigitVal_hexDigitChar (b / 16) (by omega),
        hexDigitVal_hexDigitChar (b % 16) (by omega)]
    simp only [ih hbs]
    congr 1
    omega

theorem splitColon_no_colon (a : JsStr) (ha : ∀ c ∈ a, c ≠ 58) :
    splitColon a = [a] := by
  induction a with
  | nil => rfl
  | cons c cs ih =>
    have hc : c ≠ 58 := ha c (List.mem_cons_self c cs)
    have hcs : ∀ x ∈ cs, x ≠ 58 := fun x hx => ha x (List.mem_cons_of_mem c hx)
    simp only [splitColon, if_neg hc, ih hcs]

theorem splitColon_append_colon (a b : JsStr) (ha : ∀ c ∈ a, c ≠ 58) :
    splitColon (a ++ 58 :: b) = a :: splitColon b := by
  induction a with
  | nil => simp [splitColon]
  | cons c cs ih =>
    have hc : c ≠ 58 := ha c (List.mem_cons_self c cs)
    have hcs : ∀ x ∈ cs, x ≠ 58 := fun x hx => ha x (List.mem_cons_of_mem c hx)
    simp only [List.cons_append, splitColon, if_neg hc, List.append_eq, ih hcs]

theorem zipXor_length (a b : List Nat) :
    (zipXor a b).length = min a.length b.length := by
  simp [zipXor]

theorem zipXor_bytes :
    ∀ a b : List Nat, Bytes a → Bytes b → Bytes (zipXor a b) := by
  intro a
  induction a with
  | nil => intro b _ _ x hx; simp [zipXor] at hx
  | cons c cs ih =>
    intro b ha hb x hx
    cases b with
    | nil => simp [zipXor] at hx
    | cons d ds =>
      simp only [zipXor, List.zipWith_cons_cons, List.mem_cons] at hx
      rcases hx with h | h
      · have hd : d < 256 := hb d (List.mem_cons_self d ds)
        have hcb : c < 256 := ha c (List.mem_cons_self c cs)
        have hlt : c ^^^ d < 2 ^ 8 :=
          Nat.xor_lt_two_pow (n := 8) (by omega) (by omega)
        omega
      · exact ih ds (fun y hy => ha y (List.mem_cons_of_mem c hy))
          (fun y hy => hb y (List.mem_cons_of_mem d hy)) x h

theorem zipXor_zipXor (a b : List Nat) : zipXor a (zipXor a b) = b.take a.length := by
  induction a generalizing b with
  | nil => simp [zipXor]
  | cons c cs ih =>
    cases b with
    | nil => simp [zipXor]
    | cons d ds =>
      simp only [zipXor, List.zipWith_cons_cons, List.take_succ_cons] at *
      rw [Nat.xor_cancel_left]
      exact congrArg (d :: ·) (ih ds)

theorem pkcs7Pad_length_mod (pt : List Nat) : (pkcs7Pad pt).length % 16 = 0 := by
  simp only [pkcs7Pad, List.length_append, List.length_replicate]
  omega

theorem pkcs7Pad_ne_nil (pt : List Nat) : pkcs7Pad pt ≠ [] := by
  have : (pkcs7Pad pt).length ≠ 0 := by
    simp only [pkcs7Pad, List.length_append, List.length_replicate]
    omega
  intro h
  exact this (h ▸ rfl)

theorem pkcs7Pad_bytes (pt : List Nat) (h : Bytes pt) : Bytes (pkcs7Pad pt) := by
  intro x hx
  simp only [pkcs7Pad, List.mem_append, List.mem_replicate] at hx
  rcases hx with hx | hx
  · exact h x hx
  · omega

theorem pkcs7Unpad_pkcs7Pad (pt : List Nat) :
    pkcs7Unpad (pkcs7Pad pt) = some pt := by
  set p := 16 - pt.length % 16 with hp
  have hp1 : 1 ≤ p := by omega
  have hp16 : p ≤ 16 := by omega
  have hrep : List.replicate p p ≠ [] := by
    intro h
    have := congrArg List.length h
    simp at this
    omega
  have hlast : (pkcs7Pad pt).getLast? = some p := by
    rw [pkcs7Pad, ← hp, List.getLast?_append_of_ne_nil _ hrep]
    cases hpc : p with
    | zero => omega
    | succ n => simp [List.getLast?_replicate]
  have hlen : (pkcs7Pad pt).length = pt.length + p := by
    simp [pkcs7Pad, ← hp]
  simp only [pkcs7Unpad, hlast]
  rw [if_pos]
  · congr 1
    rw [hlen]
    have : pt.length + p - p = pt.length := by omega
    rw [this, pkcs7Pad, ← hp, List.take_left]
  · refine ⟨hp1, hp16, by omega, ?_⟩
    rw [hlen]
    have : pt.length + p - p = pt.length := by omega
    rw [this, pkcs7Pad, ← hp, List.drop_left]
    simp [List.all_eq_true, List.mem_replicate]

theorem toBlocks_flatten : ∀ l : List Nat, (toBlocks l).flatten = l := by
  intro l
  induction l using toBlocks.induct with
  | case1 => simp [toBlocks]
  | case2 l h ih =>
    rw [toBlocks, dif_neg h]
    simp [List.flatten_cons, ih]

theorem toBlocks_blockLength :
    ∀ l : List Nat, l.length % 16 = 0 → ∀ b ∈ toBlocks l, b.length = 16 := by
  intro l
  induction l using toBlocks.induct with
  | case1 => intro _ b hb; simp [toBlocks] at hb
  | case2 l h ih =>
    intro hmod b hb
    have hpos : 0 < l.length := List.length_pos.mpr h
    have h16 : 16 ≤ l.length := by omega
    rw [toBlocks, dif_neg h] at hb
    rcases List.mem_cons.mp hb with hb | hb
    · rw [hb, List.length_take]; omega
    · exact ih (by simp only [List.length_drop]; omega) b hb

theorem toBlocks_bytes :
    ∀ l : List Nat, Bytes l → ∀ b ∈ toBlocks l, Bytes b := by
  intro l
  induction l using toBlocks.induct with
  | case1 => intro _ b hb; simp [toBlocks] at hb
  | case2 l h ih =>
    intro hl b hb
    rw [toBlocks, dif_neg h] at hb
    rcases List.mem_cons.mp hb with hb | hb
    · intro x hx
      exact hl x (List.mem_of_mem_take (hb ▸ hx))
    · exact ih (fun x hx => hl x (List.mem_of_mem_drop hx)) b hb

theorem toBlocks_flatten_blocks :
    ∀ bs : List (List Nat), (∀ b ∈ bs, b.length = 16) → toBlocks bs.flatten = bs := by
  intro bs
  induction bs with
  | nil => intro _; simp [toBlocks]
  | cons b bs ih =>
    intro h
    have hb : b.length = 16 := h b (List.mem_cons_self b bs)
    have hbs : ∀ x ∈ bs, x.length = 16 := fun x hx => h x (List.mem_cons_of_mem b hx)
    have hne : (b :: bs).flatten ≠ [] := by
      simp only [List.flatten_cons]
      intro hc
      have := congrArg List.length hc
      simp [hb] at this
    rw [List.flatten_cons, toBlocks, dif_neg (by rw [← List.flatten_cons]; exact hne)]
    rw [List.take_left' hb, List.drop_left' hb, ih hbs]

theorem cbcEncrypt_blocks (C : BlockCipher) (key : List Nat) :
    ∀ (bs : List (List Nat)) (iv : List Nat), iv.length = 16 → Bytes iv →
      (∀ b ∈ bs, b.length = 16 ∧ Bytes b) →
      ∀ c ∈ cbcEncrypt C key iv bs, c.length = 16 ∧ Bytes c := by
  intro bs
  induction bs with
  | nil => intro iv _ _ _ c hc; simp [cbcEncrypt] at hc
  | cons b bs ih =>
    intro iv hiv hivB hbs c hc
    have hb := hbs b (List.mem_cons_self b bs)
    have hz : (zipXor iv b).length = 16 := by
      rw [zipXor_length, hiv, hb.1]; simp
    have hzB : Bytes (zipXor iv b) := zipXor_bytes iv b hivB hb.2
    have hcl : (C.encB key (zipXor iv b)).length = 16 := C.encB_length key _ hz
    have hcB : Bytes (C.encB key (zipXor iv b)) := C.encB_bytes key _ hz hzB
    simp only [cbcEncrypt, List.mem_cons] at hc
    rcases hc with hc | hc
    · exact hc ▸ ⟨hcl, hcB⟩
    · exact ih (C.encB key (zipXor iv b)) hcl hcB
        (fun x hx => hbs x (List.mem_cons_of_mem b hx)) c hc

theorem cbcDecrypt_cbcEncrypt (C : BlockCipher) (key : List Nat) :
    ∀ (bs : List (List Nat)) (iv : List Nat), iv.length = 16 → Bytes iv →
      (∀ b ∈ bs, b.length = 16 ∧ Bytes b) →
      cbcDecrypt C key iv (cbcEncrypt C key iv bs) = bs := by
  intro bs
  induction bs with
  | nil => intro iv _ _ _; simp [cbcEncrypt, cbcDecrypt]
  | cons b bs ih =>
    intro iv hiv hivB hbs
    have hb := hbs b (List.mem_cons_self b bs)
    have hz : (zipXor iv b).length = 16 := by
      rw [zipXor_length, hiv, hb.1]; simp
    have hzB : Bytes (zipXor iv b) := zipXor_bytes iv b hivB hb.2
    have hcl : (C.encB key (zipXor iv b)).length = 16 := C.encB_length key _ hz
    have hcB : Bytes (C.encB key (zipXor iv b)) := C.encB_bytes key _ hz hzB
    simp only [cbcEncrypt, cbcDecrypt]
    congr 1
    · rw [C.decB_encB key _ hz hzB, zipXor_zipXor, hiv, ← hb.1, List.take_length]
    · exact ih (C.encB key (zipXor iv b)) hcl hcB
        (fun x hx => hbs x (List.mem_cons_of_mem b hx))

theorem flatten_blocks_length (bs : List (List Nat)) (h : ∀ b ∈ bs, b.length = 16) :
    bs.flatten.length = 16 * bs.length := by
  induction bs with
  | nil => simp
  | cons b bs ih =>
    have hb : b.length = 16 := h b (List.mem_cons_self b bs)
    have hbs := fun x hx => h x (List.mem_cons_of_mem b hx)
    simp only [List.flatten_cons, List.length_append, hb, ih hbs, List.length_cons]
    ring

theorem flatten_blocks_bytes (bs : List (List Nat)) (h : ∀ b ∈ bs, Bytes b) :
    Bytes bs.flatten := by
  intro x hx
  rcases List.mem_flatten.mp hx with ⟨b, hb, hxb⟩
  exact h b hb x hxb

/-- Round trip of the encryption envelope: decrypting an encrypted plaintext
with the same key recovers the plaintext, for any 16-byte IV. -/
theorem decrypt_encrypt (C : BlockCipher) (key iv pt : List Nat)
    (hiv : iv.length = 16) (hivB : Bytes iv) (hpt : Bytes pt) :
    decrypt C key (encrypt C key iv pt) = pt := by
  have hpadB : Bytes (pkcs7Pad pt) := pkcs7Pad_bytes pt hpt
  have hpadM : (pkcs7Pad pt).length % 16 = 0 := pkcs7Pad_length_mod pt
  set bs := toBlocks (pkcs7Pad pt) with hbs
  have hblk : ∀ b ∈ bs, b.length = 16 ∧ Bytes b := fun b hb =>
    ⟨toBlocks_blockLength (pkcs7Pad pt) hpadM b hb, toBlocks_bytes (pkcs7Pad pt) hpadB b hb⟩
  set cbs := cbcEncrypt C key iv bs with hcbs
  have hcblk : ∀ c ∈ cbs, c.length = 16 ∧ Bytes c :=
    cbcEncrypt_blocks C key bs iv hiv hivB hblk
  set ct := cbs.flatten with hct
  have hctB : Bytes ct := flatten_blocks_bytes cbs fun c hc => (hcblk c hc).2
  have hctL : ct.length = 16 * cbs.length :=
    flatten_blocks_length cbs fun c hc => (hcblk c hc).1
  have hbsne : bs ≠ [] := by
    rw [hbs, toBlocks]
    rw [dif_neg (pkcs7Pad_ne_nil pt)]
    exact List.cons_ne_nil _ _
  have hcbsne : cbs ≠ [] := by
    rw [hcbs]
    cases hb : bs with
    | nil => exact absurd hb hbsne
    | cons x xs => simp [cbcEncrypt]
  have hsplit : splitColon (encrypt C key iv pt) = [hexEncode iv, hexEncode ct] := by
    rw [encrypt, splitColon_append_colon _ _ (hexEncode_no_colon iv),
        splitColon_no_colon _ (hexEncode_no_colon _)]
  rw [decrypt, decryptBody, hsplit]
  simp only [decryptParts, hexDecode_hexEncode iv hivB, hiv,
    hexDecode_hexEncode ct hctB]
  rw [if_neg (by omega : ¬(16 : Nat) ≠ 16)]
  have hctne : ct.length ≠ 0 := by
    rw [hctL]
    have : cbs.length ≠ 0 := fun hc => hcbsne (List.length_eq_zero.mp hc)
    omega
  have hctm : ct.length % 16 = 0 := by rw [hctL]; omega
  rw [if_neg (by omega : ¬(ct.length = 0 ∨ ct.length % 16 ≠ 0))]
  rw [hct, toBlocks_flatten_blocks cbs fun c hc => (hcblk c hc).1]
  rw [hcbs, cbcDecrypt_cbcEncrypt C key bs iv hiv hivB hblk]
  rw [hbs, toBlocks_flatten, pkcs7Unpad_pkcs7Pad]

theorem decryptSnippet_userId (C : BlockCipher) (key : List Nat) (s : Snippet) :
    (decryptSnippet C key s).userId = s.userId := rfl

theorem of_mem_getSnippetsList (C : BlockCipher) (key : List Nat)
    (store : List Snippet) (lang : Option JsStr) (s : Snippet)
    (h : s ∈ getSnippetsList C key store lang) :
    ∃ t ∈ store, t.userId = none ∧ s = decryptSnippet C key t := by
  unfold getSnippetsList at h
  have main : ∀ t ∈ store.filter (fun s => s.userId == none),
      t ∈ store ∧ t.userId = none := by
    intro t ht
    have := List.mem_filter.mp ht
    exact ⟨this.1, by simpa using this.2⟩
  rcases lang with _ | l
  · simp only at h
    rcases List.mem_map.mp h with ⟨t, ht, rfl⟩
    rcases main t ht with ⟨h1, h2⟩
    exact ⟨t, h1, h2, rfl⟩
  · simp only at h
    by_cases hl : l.isEmpty
    · rw [if_pos hl] at h
      rcases List.mem_map.mp h with ⟨t, ht, rfl⟩
      rcases main t ht with ⟨h1, h2⟩
      exact ⟨t, h1, h2, rfl⟩
    · rw [if_neg hl] at h
      rcases List.mem_map.mp h with ⟨t, ht, rfl⟩
      have ht' := (List.mem_filter.mp ht).1
      rcases main t ht' with ⟨h1, h2⟩
      exact ⟨t, h1, h2, rfl⟩

theorem sentinel_excluded (C : BlockCipher) (key : List Nat)
    (store : List Snippet) (l : JsStr) (hl : l ≠ []) (s : Snippet)
    (hs : decrypt C key s.code = decryptionError) :
    decryptSnippet C key s ∉ getSnippetsList C key store (some l) := by
  intro hmem
  have hle : l.isEmpty = false := by
    cases l with
    | nil => exact absurd rfl hl
    | cons c cs => rfl
  unfold getSnippetsList at hmem
  simp only [hle] at hmem
  rw [if_neg (by simp : ¬(false = true))] at hmem
  rcases List.mem_map.mp hmem with ⟨t, ht, heq⟩
  have ht2 := (List.mem_filter.mp ht).2
  have hdt : decrypt C key t.code ≠ decryptionError := by
    have := (Bool.and_eq_true _ _).mp ht2
    exact bne_iff_ne.mp this.1
  have hcode : decrypt C key t.code = decrypt C key s.code :=
    congrArg Snippet.code heq
  exact hdt (hcode.trans hs)

/-- C1: for every plaintext `P`, decrypting the result of encrypting `P`
with the process key returns exactly `P` — the fresh-IV AES-256-CBC envelope
`<hex IV>:<hex ciphertext>` produced by `encrypt` decodes back to the
plaintext under `decrypt`, for every block cipher, key and 16-byte IV. -/
theorem C1_decode_encode_roundtrip (C : BlockCipher) (key iv pt : List Nat)
    (hiv : iv.length = 16) (hivB : Bytes iv) (hpt : Bytes pt) :
    decrypt C key (encrypt C key iv pt) = pt :=
  decrypt_encrypt C key iv pt hiv hivB hpt

theorem C1_witness :
    (iv0.length = 16 ∧ Bytes iv0 ∧ Bytes msg0) ∧
      decrypt idCipher key0 (encrypt idCipher key0 iv0 msg0) = msg0 :=
  ⟨⟨by decide, by decide, by decide⟩,
    C1_decode_encode_roundtrip idCipher key0 iv0 msg0 (by decide) (by decide)
      (by decide)⟩

/-- C3: `decrypt` fails to the sentinel when the input does not split into
exactly two colon-delimited fields, or when the first field does not
hex-decode to exactly 16 bytes; and on every input, `decrypt` returns either
the decoded plaintext or the failure value — every throwing step of the
`try` body is caught, none propagates. -/
theorem C3_decrypt_failure_handling (C : BlockCipher) (key : List Nat)
    (text : JsStr) :
    ((splitColon text).length ≠ 2 → decrypt C key text = decryptionError) ∧
    (∀ p0 p1, splitColon text = [p0, p1] → (hexDecode p0).length ≠ 16 →
      decrypt C key text = decryptionError) ∧
    ((∃ e, decryptBody C key text = Except.error e ∧
        decrypt C key text = decryptionError) ∨
      (∃ pt, decryptBody C key text = Except.ok pt ∧
        decrypt C key text = pt)) := by
  refine ⟨?_, ?_, ?_⟩
  · intro hlen
    have hb : decryptBody C key text = Except.error "Invalid encrypted text format" := by
      simp only [decryptBody]
      rcases hsp : splitColon text with _ | ⟨a, _ | ⟨b, _ | ⟨c, rest⟩⟩⟩
      · rfl
      · rfl
      · exact absurd (by rw [hsp]; rfl) hlen
      · rfl
    simp only [decrypt, hb]
  · intro p0 p1 hsp hlen
    have hb : decryptBody C key text = Except.error "Invalid IV length" := by
      simp only [decryptBody, hsp, decryptParts]
      rw [if_pos hlen]
    simp only [decrypt, hb]
  · cases hb : decryptBody C key text with
    | ok pt => exact Or.inr ⟨pt, rfl, by simp only [decrypt, hb]⟩
    | error e => exact Or.inl ⟨e, rfl, by simp only [decrypt, hb]⟩

theorem C3_witness :
    ((splitColon [120]).length ≠ 2 ∧ decrypt idCipher key0 [120] = decryptionError) ∧
      (splitColon [58] = [[], []] ∧ (hexDecode []).length ≠ 16 ∧
        decrypt idCipher key0 [58] = decryptionError) :=
  ⟨⟨by decide, (C3_decrypt_failure_handling idCipher key0 [120]).1 (by decide)⟩,
    ⟨by decide, by decide,
      (C3_decrypt_failure_handling idCipher key0 [58]).2.1 [] [] (by decide)
        (by decide)⟩⟩

/-- C5: for any two distinct 16-byte IVs, encrypting under them produces two
different stored envelope strings (even for the same plaintext) — two calls
to `encrypt`, each drawing a fresh random IV, yield different ciphertext
strings whenever the drawn IVs differ. -/
theorem C5_iv_freshness_distinct (C : BlockCipher) (key iv1 iv2 pt1 pt2 : List Nat)
    (h1 : iv1.length = 16) (h2 : iv2.length = 16)
    (hB1 : Bytes iv1) (hB2 : Bytes iv2) (hne : iv1 ≠ iv2) :
    encrypt C key iv1 pt1 ≠ encrypt C key iv2 pt2 := by
  intro heq
  have h1' : (hexEncode iv1).length = 32 := by rw [hexEncode_length, h1]
  have h2' : (hexEncode iv2).length = 32 := by rw [hexEncode_length, h2]
  unfold encrypt at heq
  have htake := congrArg (List.take 32) heq
  rw [List.take_left' h1', List.take_left' h2'] at htake
  have hdec := congrArg hexDecode htake
  rw [hexDecode_hexEncode iv1 hB1, hexDecode_hexEncode iv2 hB2] at hdec
  exact hne hdec

theorem C5_witness :
    (iv0.length = 16 ∧ iv1.length = 16 ∧ Bytes iv0 ∧ Bytes iv1 ∧ iv0 ≠ iv1) ∧
      encrypt idCipher key0 iv0 msg0 ≠ encrypt idCipher key0 iv1 msg0 :=
  ⟨⟨by decide, by decide, by decide, by decide, by decide⟩,
    C5_iv_freshness_distinct idCipher key0 iv0 iv1 msg0 msg0 (by decide)
      (by decide) (by decide) (by decide) (by decide)⟩

/-- C2 (counterexample): anonymous `GET /snippets/:id` of the existing
private snippet id 1 yields a 403, while the non-existent id 2 yields a 404;
the two observable responses differ, so the outcome does reveal whether the
id exists as a private record, contradicting the claim's indistinguishability
requirement. -/
theorem C2_counterexample_observables_differ :
    (getSnippetById idCipher key0 stC2 1).status = 403 ∧
    (getSnippetById idCipher key0 stC2 2).status = 404 ∧
    getSnippetById idCipher key0 stC2 1 ≠ getSnippetById idCipher key0 stC2 2 := by
  decide

/-- C2 (amended): anonymous `GET /snippets/:id` returns a non-200 outcome
both for an existing private snippet (403, authentication-required message)
and for a missing id (404, not-found message); the two responses are
distinct observables, so existence of a private id is revealed rather than
hidden. -/
theorem C2_amended_anonymous_get_non200 (C : BlockCipher) (key : List Nat)
    (store : List Snippet) (id : Nat) :
    (∀ s, store.find? (fun t => t.id == id) = some s → s.userId ≠ none →
      getSnippetById C key store id =
        ⟨403, .message "This snippet requires authentication"⟩ ∧
      (getSnippetById C key store id).status ≠ 200) ∧
    (store.find? (fun t => t.id == id) = none →
      getSnippetById C key store id =
        ⟨404, .message ("Snippet with ID " ++ toString id ++ " not found.")⟩ ∧
      (getSnippetById C key store id).status ≠ 200) := by
  constructor
  · intro s hf hu
    have hr : getSnippetById C key store id =
        ⟨403, .message "This snippet requires authentication"⟩ := by
      simp only [getSnippetById, hf]
      rw [if_pos hu]
    exact ⟨hr, by rw [hr]; decide⟩
  · intro hf
    have hr : getSnippetById C key store id =
        ⟨404, .message ("Snippet with ID " ++ toString id ++ " not found.")⟩ := by
      simp only [getSnippetById, hf]
    exact ⟨hr, by simp [hr]⟩

theorem C2_amended_witness :
    (getSnippetById idCipher key0 stC2 1 =
        ⟨403, .message "This snippet requires authentication"⟩ ∧
      (getSnippetById idCipher key0 stC2 1).status ≠ 200) ∧
    (getSnippetById idCipher key0 stC2 2 =
        ⟨404, .message ("Snippet with ID " ++ toString 2 ++ " not found.")⟩ ∧
      (getSnippetById idCipher key0 stC2 2).status ≠ 200) :=
  ⟨(C2_amended_anonymous_get_non200 idCipher key0 stC2 1).1 snipPriv (by decide)
      (by decide),
    (C2_amended_anonymous_get_non200 idCipher key0 stC2 2).2 (by decide)⟩

/-- C4: for every login attempt with both fields present, an unknown email
(under case-insensitive lookup) and a known email with a non-matching
password produce the same generic failure outcome — identical status 401 and
identical message. -/
theorem C4_uniform_login_failure (compare : JsStr → JsStr → Bool)
    (mac : JsStr → Claims → Nat) (secret : JsStr) (now : Nat)
    (users : List User) (email password : JsStr)
    (he : email ≠ []) (hp : password ≠ []) :
    (users.find? (fun u => toLower u.email == toLower email) = none →
      loginHandler compare mac secret now users email password =
        ⟨401, .message "Invalid email or password"⟩) ∧
    (∀ u, users.find? (fun u => toLower u.email == toLower email) = some u →
      compare password u.passwordHash = false →
      loginHandler compare mac secret now users email password =
        ⟨401, .message "Invalid email or password"⟩) := by
  have hcond : (email.isEmpty || password.isEmpty) = false := by
    cases email with
    | nil => exact absurd rfl he
    | cons a as =>
      cases password with
      | nil => exact absurd rfl hp
      | cons b bs => rfl
  constructor
  · intro hf
    simp [loginHandler, hcond, hf]
  · intro u hf hcmp
    simp [loginHandler, hcond, hf, hcmp]

theorem C4_witness :
    (stUsers.find? (fun u => toLower u.email == toLower [122]) = none ∧
      loginHandler cmp0 mac0 key0 0 stUsers [122] [104] =
        ⟨401, .message "Invalid email or password"⟩) ∧
    (stUsers.find? (fun u => toLower u.email == toLower [65, 64, 66]) = some userA ∧
      cmp0 [104] userA.passwordHash = false ∧
      loginHandler cmp0 mac0 key0 0 stUsers [65, 64, 66] [104] =
        ⟨401, .message "Invalid email or password"⟩) :=
  ⟨⟨by decide,
      (C4_uniform_login_failure cmp0 mac0 key0 0 stUsers [122] [104]
        (by decide) (by decide)).1 (by decide)⟩,
    ⟨by decide, by decide,
      (C4_uniform_login_failure cmp0 mac0 key0 0 stUsers [65, 64, 66] [104]
        (by decide) (by decide)).2 userA (by decide) (by decide)⟩⟩

/-- C6: a registration whose email equals an existing user's email under
case-insensitive comparison fails with the duplicate-email outcome (409) and
leaves the user store unchanged: no record appended, counter not advanced. -/
theorem C6_duplicate_email_rejected (hash : JsStr → JsStr) (st : UserStore)
    (email password : JsStr) (he : email ≠ []) (hp : password ≠ [])
    (hdup : ∃ u ∈ st.users, toLower u.email = toLower email) :
    registerUser hash st email password =
      (⟨409, .message "User with this email already exists."⟩, st) := by
  have hcond : (email.isEmpty || password.isEmpty) = false := by
    cases email with
    | nil => exact absurd rfl he
    | cons a as =>
      cases password with
      | nil => exact absurd rfl hp
      | cons b bs => rfl
  have hany : st.users.any (fun u => toLower u.email == toLower email) = true := by
    rcases hdup with ⟨u, hu, heq⟩
    exact List.any_eq_true.mpr ⟨u, hu, beq_iff_eq.mpr heq⟩
  simp [registerUser, hcond, hany]

theorem C6_witness :
    (([65, 64, 66] : JsStr) ≠ [] ∧ ([104] : JsStr) ≠ [] ∧
      toLower userA.email = toLower [65, 64, 66]) ∧
      registerUser hash0 stReg [65, 64, 66] [104] =
        (⟨409, .message "User with this email already exists."⟩, stReg) :=
  ⟨⟨by decide, by decide, by decide⟩,
    C6_duplicate_email_rejected hash0 stReg [65, 64, 66] [104] (by decide)
      (by decide) ⟨userA, by decide, by decide⟩⟩

/-- C7: the authenticated "my snippets" listing returns exactly the snippets
owned by the caller — every returned record has the caller as owner, and
every stored record of the caller is returned (decrypted) — and the
anonymous listing only ever contains records with owner `none`. -/
theorem C7_listing_ownership (C : BlockCipher) (key : List Nat)
    (store : List Snippet) (uid : Nat) (lang : Option JsStr) :
    (∀ s ∈ getUserSnippetsList C key store uid, s.userId = some uid) ∧
    (∀ s ∈ store, s.userId = some uid →
      decryptSnippet C key s ∈ getUserSnippetsList C key store uid) ∧
    (∀ s ∈ getSnippetsList C key store lang, s.userId = none) := by
  refine ⟨?_, ?_, ?_⟩
  · intro s hs
    unfold getUserSnippetsList at hs
    rcases List.mem_map.mp hs with ⟨t, ht, rfl⟩
    have h2 := (List.mem_filter.mp ht).2
    have h3 : t.userId = some uid := by simpa using h2
    simpa [decryptSnippet_userId] using h3
  · intro s hs hu
    unfold getUserSnippetsList
    exact List.mem_map.mpr ⟨s, List.mem_filter.mpr ⟨hs, by simpa using hu⟩, rfl⟩
  · intro s hs
    rcases of_mem_getSnippetsList C key store lang s hs with ⟨t, _, ht, rfl⟩
    simpa [decryptSnippet_userId] using ht

theorem C7_witness :
    (snipMine ∈ stC7 ∧ snipMine.userId = some 4) ∧
      decryptSnippet idCipher key0 snipMine ∈
        getUserSnippetsList idCipher key0 stC7 4 :=
  ⟨⟨by decide, by decide⟩,
    (C7_listing_ownership idCipher key0 stC7 4 none).2.1 snipMine (by decide)
      (by decide)⟩

/-- C8 (counterexample): the corrupted public python snippet decrypts to the
failure value, matches the requested language and is public, yet the
language-filtered listing omits it entirely instead of reporting it as
unreadable — refuting the claim that every listing still reports a corrupted
record.  (The unfiltered listing does report it with the sentinel body.) -/
theorem C8_counterexample_filtered_listing_omits :
    decrypt idCipher key0 snipPub.code = decryptionError ∧
    snipPub.userId = none ∧
    toLower snipPub.language = toLower pyLang ∧
    getSnippetsList idCipher key0 stC8 (some pyLang) = [] ∧
    getSnippetsList idCipher key0 stC8 none =
      [decryptSnippet idCipher key0 snipPub] := by
  decide

/-- C8 (amended): a corrupted stored record degrades to the unreadable
sentinel without affecting the rest: the unfiltered listing still returns
every public record (the corrupted one carrying the sentinel body), and the
presence of a corrupted record does not change which other records a
language-filtered listing returns — but the language-filtered listing omits
corrupted records rather than reporting them as unreadable. -/
theorem C8_amended_corrupted_record_degrades (C : BlockCipher) (key : List Nat) :
    (∀ store : List Snippet, ∀ s ∈ store, s.userId = none →
      decryptSnippet C key s ∈ getSnippetsList C key store none) ∧
    (∀ (store : List Snippet) (l : JsStr), l ≠ [] → ∀ s ∈ store,
      decrypt C key s.code = decryptionError →
      decryptSnippet C key s ∉ getSnippetsList C key store (some l)) ∧
    (∀ (pre post : List Snippet) (b : Snippet) (l : JsStr), l ≠ [] →
      decrypt C key b.code = decryptionError →
      getSnippetsList C key (pre ++ b :: post) (some l) =
        getSnippetsList C key (pre ++ post) (some l)) := by
  refine ⟨?_, ?_, ?_⟩
  · intro store s hs hu
    unfold getSnippetsList
    simp only []
    exact List.mem_map.mpr ⟨s, List.mem_filter.mpr ⟨hs, by simpa using hu⟩, rfl⟩
  · intro store l hl s hs hcode
    exact sentinel_excluded C key store l hl s hcode
  · intro pre post b l hl hb
    have hle : l.isEmpty = false := by
      cases l with
      | nil => exact absurd rfl hl
      | cons c cs => rfl
    unfold getSnippetsList
    simp only [hle]
    rw [if_neg (by simp : ¬(false = true)), if_neg (by simp : ¬(false = true))]
    congr 1
    rw [List.filter_filter, List.filter_filter, List.filter_append,
        List.filter_append, List.filter_cons]
    have hpb : ((decrypt C key b.code != decryptionError) &&
        (toLower b.language == toLower l) && (b.userId == none)) = false := by
      rw [hb]
      simp
    rw [hpb]
    simp

theorem C8_amended_witness :
    decryptSnippet idCipher key0 snipPub ∈ getSnippetsList idCipher key0 stC8 none ∧
      decryptSnippet idCipher key0 snipPub ∉
        getSnippetsList idCipher key0 stC8 (some pyLang) :=
  ⟨(C8_amended_corrupted_record_degrades idCipher key0).1 stC8 snipPub
      (by decide) (by decide),
    (C8_amended_corrupted_record_degrades idCipher key0).2.1 stC8 pyLang
      (by decide) snipPub (by decide) (by decide)⟩

/-- C9: a token issued at time `t0` verifies successfully (recovering the
claim set) at any time strictly before `t0 + 24h`, and is rejected with the
uniform invalid-or-expired error at any time after `t0 + 24h`; the verifier
consults only the token, the secret and the clock — no revocation state. -/
theorem C9_token_lifetime (mac : JsStr → Claims → Nat) (secret : JsStr)
    (uid : Nat) (email : JsStr) (t0 now : Nat) :
    (now < t0 + jwtExpirationSeconds →
      verify mac secret (issue mac secret uid email t0) now =
        Except.ok ⟨uid, email, t0, t0 + jwtExpirationSeconds⟩) ∧
    (t0 + jwtExpirationSeconds < now →
      verify mac secret (issue mac secret uid email t0) now =
        Except.error "Invalid or expired token") := by
  constructor
  · intro h
    simp [verify, issue, h]
  · intro h
    simp [verify, issue]
    omega

theorem C9_witness :
    ((0 : Nat) < 0 + jwtExpirationSeconds ∧
      verify mac0 key0 (issue mac0 key0 1 msg0 0) 0 =
        Except.ok ⟨1, msg0, 0, 0 + jwtExpirationSeconds⟩) ∧
    (0 + jwtExpirationSeconds < 100000 ∧
      verify mac0 key0 (issue mac0 key0 1 msg0 0) 100000 =
        Except.error "Invalid or expired token") :=
  ⟨⟨by decide, (C9_token_lifetime mac0 key0 1 msg0 0 0).1 (by decide)⟩,
    ⟨by decide, (C9_token_lifetime mac0 key0 1 msg0 0 100000).2 (by decide)⟩⟩

/-- C10: the failure value of `decrypt` is the ordinary string
`"[Decryption Error]"`, which lies inside the plaintext space: encrypting
exactly that string and decrypting it returns the same value as decoding a
corrupted payload, and the language-filtered listing excludes such a
successfully decrypted snippet exactly as it excludes unreadable records. -/
theorem C10_sentinel_in_plaintext_space (C : BlockCipher) (key iv : List Nat)
    (hiv : iv.length = 16) (hivB : Bytes iv) :
    decrypt C key (encrypt C key iv decryptionError) = decryptionError ∧
    decrypt C key [120] = decryptionError ∧
    decrypt C key (encrypt C key iv decryptionError) = decrypt C key [120] ∧
    (∀ (store : List Snippet) (l : JsStr) (s : Snippet), l ≠ [] → s ∈ store →
      s.code = encrypt C key iv decryptionError →
      decryptSnippet C key s ∉ getSnippetsList C key store (some l)) := by
  have h1 : decrypt C key (encrypt C key iv decryptionError) = decryptionError :=
    decrypt_encrypt C key iv decryptionError hiv hivB (by decide)
  have h2 : decrypt C key [120] = decryptionError := rfl
  refine ⟨h1, h2, h1.trans h2.symm, ?_⟩
  intro store l s hl hs hcode
  exact sentinel_excluded C key store l hl s (by rw [hcode, h1])

theorem C10_witness :
    (iv0.length = 16 ∧ Bytes iv0) ∧
      decrypt idCipher key0 (encrypt idCipher key0 iv0 decryptionError) =
        decrypt idCipher key0 [120] :=
  ⟨⟨by decide, by decide⟩,
    (C10_sentinel_in_plaintext_space idCipher key0 iv0 (by decide)
        (by decide)).2.2.1⟩

end Snippr
